import Mathlib

/-!
Verification of the tvaf core against its natural-language specification.

The Python sources under `tvaf/` are shallowly embedded: pure helpers become
Lean functions, the stateful `ResumeService` becomes an explicit state machine
whose steps mirror the handler methods, and fallible filesystem operations are
driven by explicit error oracles.  `tvaf/fs.py` and `tvaf/library.py` are not
part of the source tree (only their tests are), so those parts are modelled
from the specification text, as marked in their doc comments.
-/

namespace Tvaf

/-! ## Errno constants (Linux values, as used by the `errno` module) -/

def ENOENT : Nat := 2
def ENOTDIR : Nat := 20
def EINVAL : Nat := 22
def EROFS : Nat := 30
def ELOOP : Nat := 40

/-! ## `pathlib` name helpers (Python 3.8 semantics)

`iter_resume_data_from_disk` filters directory entries with `path.suffixes`
and `path.stem`.  These mirror `pathlib.PurePath.suffixes` / `.stem`. -/

/-- Index of the last `'.'` in a list of characters, if any. -/
def lastDotIdx (cs : List Char) : Option Nat :=
  match cs.reverse.findIdx? (fun c => c == '.') with
  | some j => some (cs.length - 1 - j)
  | none => none

/-- `pathlib.PurePath.stem`: the file name without its last suffix.
The suffix is only split off when `0 < i < len(name) - 1` for the last
dot index `i`. -/
def pyStem (name : String) : String :=
  let cs := name.toList
  match lastDotIdx cs with
  | some i => if 0 < i ∧ i + 1 < cs.length then ⟨cs.take i⟩ else name
  | none => name

/-- `pathlib.PurePath.suffixes`: all dot-suffixes of the final component.
A trailing dot yields `[]`; leading dots belong to the stem. -/
def pySuffixes (name : String) : List String :=
  let cs := name.toList
  if cs.getLast? = some '.' then []
  else
    ((cs.dropWhile (fun c => c == '.')).splitOn '.').tail.map
      (fun s => String.mk ('.' :: s))

/-- `re.match(r"[0-9a-f]{40}", s)`: anchored at the start only, so this is a
prefix test, not a full match. -/
def isHexLower (c : Char) : Bool :=
  ('0' ≤ c && c ≤ '9') || ('a' ≤ c && c ≤ 'f')

def reMatchHex40 (s : String) : Bool :=
  let cs := s.toList
  decide (40 ≤ cs.length) && (cs.take 40).all isHexLower

/-! ## `iter_resume_data_from_disk` (tvaf/resume.py lines 22-43) -/

/-- Bytes of a file, abstractly. -/
abbrev Bytes := List Nat

/-- One entry of the resume directory, with the outcome of reading it:
`Except.error e` models an `OSError` raised by `read_bytes`. -/
structure ResumeDirEntry where
  name : String
  readResult : Except Nat Bytes
  deriving Repr

/-- What `iter_resume_data_from_disk` does with a single directory entry:
skip (`none`) or yield a decoded blob (`some`).  `parse` stands for
`lt.read_resume_data` wrapped in `translate_exceptions`; a `.error` from it
models `ltpy.Error`. -/
def yieldOfEntry {α : Type} (parse : Bytes → Except Unit α)
    (e : ResumeDirEntry) : Option α :=
  if pySuffixes e.name ≠ [".resume"] then none
  else if !reMatchHex40 (pyStem e.name) then none
  else
    match e.readResult with
    | .error _ => none
    | .ok data =>
      match parse data with
      | .error _ => none
      | .ok blob => some blob

/-- `iter_resume_data_from_disk`; `isDir` is `resume_data_dir.is_dir()`. -/
def iterResumeDataFromDisk {α : Type} (parse : Bytes → Except Unit α)
    (isDir : Bool) (entries : List ResumeDirEntry) : List α :=
  if isDir then entries.filterMap (yieldOfEntry parse) else []

/-! ## The read-only FTP filesystem adapter (tvaf/ftp.py, class `_FS`) -/

/-- `OSError` with an errno, as built by `fs.mkoserror`. -/
structure OSErr where
  errno : Nat
  deriving Repr, DecidableEq

def mkoserror (e : Nat) : OSErr := ⟨e⟩

/-- Session state of `_FS`: the current directory node (`cur_dir`). -/
structure FtpFS where
  curDir : Nat
  deriving Repr, DecidableEq

/-- `_FS.mkstemp`: raises before touching anything, so no state escapes. -/
def FtpFS.mkstemp (_s : FtpFS) : Except OSErr (FtpFS × Nat) :=
  .error (mkoserror EROFS)

def FtpFS.mkdir (_s : FtpFS) (_path : String) : Except OSErr FtpFS :=
  .error (mkoserror EROFS)

def FtpFS.rmdir (_s : FtpFS) (_path : String) : Except OSErr FtpFS :=
  .error (mkoserror EROFS)

def FtpFS.rename (_s : FtpFS) (_src _dst : String) : Except OSErr FtpFS :=
  .error (mkoserror EROFS)

def FtpFS.chmod (_s : FtpFS) (_path _mode : String) : Except OSErr FtpFS :=
  .error (mkoserror EROFS)

def FtpFS.utime (_s : FtpFS) (_path : String) (_timeval : Int) :
    Except OSErr FtpFS :=
  .error (mkoserror EROFS)

/-! ## Task shutdown (tvaf/task.py, `Task._run_wrapper`)

`Task.__children` is a `weakref.WeakSet`, which has no defined iteration
order.  `_run_wrapper` calls `_get_children()` twice and iterates the result,
first terminating, then joining.  We model each `_get_children()` snapshot as
an arbitrary permutation of the children added so far. -/

inductive TEvent where
  | terminate (c : Nat)
  | join (c : Nat)
  deriving Repr, DecidableEq

/-- The sequence of child operations performed by `_run_wrapper` after `_run`
completes, given the two `_get_children()` snapshots `iter1` and `iter2`. -/
def runWrapperEvents (iter1 iter2 : List Nat) : List TEvent :=
  iter1.map TEvent.terminate ++ iter2.map TEvent.join

def termOf : TEvent → Option Nat
  | .terminate c => some c
  | .join _ => none

def joinOf : TEvent → Option Nat
  | .join c => some c
  | .terminate _ => none

def termSeq (evs : List TEvent) : List Nat :=
  evs.filterMap termOf

def joinSeq (evs : List TEvent) : List Nat :=
  evs.filterMap joinOf

/-! ## By-index and by-path views (spec §4.2)

Modelled from the spec: `tvaf/library.py` is not in the source tree, only
`tests/library_test.py`.  Per the spec, the by-index directory lists every
non-padding file under its original decimal index, padding files are hidden
from both views, and bad or colliding paths are omitted from the by-path
view only. -/

structure TFile where
  path : List String
  isPad : Bool
  size : Nat
  deriving Repr, DecidableEq

/-- Indices of the files visible in the by-index directory. -/
def byIndexIndices (files : List TFile) : List Nat :=
  (files.enum.filter (fun p => !p.2.isPad)).map (fun p => p.1)

/-- Names in the by-index directory listing: original indices, rendered in
decimal, with padding files skipped. -/
def byIndexNames (files : List TFile) : List String :=
  (byIndexIndices files).map toString

/-- Decimal digit value of a character, if it is one. -/
def decDigit (c : Char) : Option Nat :=
  if '0' ≤ c ∧ c ≤ '9' then some (c.toNat - '0'.toNat) else none

/-- Parse a decimal numeral (`int(name)` semantics on the names at hand). -/
def parseDecimal (s : String) : Option Nat :=
  match s.toList with
  | [] => none
  | cs =>
    cs.foldl
      (fun acc c =>
        match acc, decDigit c with
        | some n, some d => some (n * 10 + d)
        | _, _ => none)
      (some 0)

/-- Modelled from the spec: by-index `lookup(name)`, failing with `ENOENT`
for a missing index or a padding file. -/
def byIndexLookup (files : List TFile) (name : String) : Except Nat Nat :=
  match parseDecimal name with
  | none => .error ENOENT
  | some i =>
    match files.get? i with
    | none => .error ENOENT
    | some f => if f.isPad then .error ENOENT else .ok i

def goodComponent (s : String) : Bool :=
  !(s == "") && !(s == "..") && !(s.contains '/') && !(s.contains (Char.ofNat 0))

def goodPath (l : List String) : Bool :=
  !(l.isEmpty) && l.all goodComponent

/-- Modelled from the spec: the by-path view's entries, as pairs of a path
and the index of the torrent file the leaf symlink points at.  Padding files
are hidden, bad paths are omitted, and colliding paths are omitted. -/
def byPathEntries (files : List TFile) : List (List String × Nat) :=
  let cands := files.enum.filter (fun p => !p.2.isPad && goodPath p.2.path)
  (cands.filter
      (fun p => (cands.filter (fun q => q.2.path == p.2.path)).length == 1)
    ).map (fun p => (p.2.path, p.1))

/-! ## ResumeService (tvaf/resume.py)

The `_outstanding` dict is a `collections.defaultdict(int)`: a key is present
exactly while its count is being tracked, and `__getitem__` defaults to 0.
We model it as a set of present keys plus a value function. -/

/-- The `_outstanding` defaultdict. -/
structure OutMap where
  keys : List String
  val : String → Int

/-- `self._outstanding[ih]` as read by a defaultdict: 0 when absent. -/
def OutMap.get (m : OutMap) (ih : String) : Int :=
  if ih ∈ m.keys then m.val ih else 0

def insertKey (ks : List String) (ih : String) : List String :=
  if ih ∈ ks then ks else ih :: ks

def eraseKey (ks : List String) (ih : String) : List String :=
  ks.filter (fun k => !(k == ih))

/-- `ResumeService._inc`: `outstanding[ih] += 1`. -/
def OutMap.inc (m : OutMap) (ih : String) : OutMap :=
  { keys := insertKey m.keys ih
    val := fun x => if x = ih then m.get ih + 1 else m.val x }

/-- `ResumeService._dec`: `outstanding[ih] -= 1`, deleting the key when the
result is `≤ 0`. -/
def OutMap.dec (m : OutMap) (ih : String) : OutMap :=
  let v := m.get ih - 1
  if v ≤ 0 then { keys := eraseKey m.keys ih, val := m.val }
  else { keys := insertKey m.keys ih
         val := fun x => if x = ih then v else m.val x }

/-- The `_outstanding` part of `ResumeService._pop`:
`outstanding.pop(ih, None)`. -/
def OutMap.pop (m : OutMap) (ih : String) : OutMap :=
  { keys := eraseKey m.keys ih, val := m.val }

/-- libtorrent `save_resume_data` flag bits (`flush_disk_cache = 1`,
`save_info_dict = 2`, `only_if_modified = 4`). -/
def flush_disk_cache : Nat := 1
def only_if_modified : Nat := 4

/-- State of `ResumeService`, together with ghost accounting used to state
the counting invariants.  The ghost fields record, per infohash: engine
`save_resume_data` calls issued, `save_resume_data_alert`s received and
scheduled (`recvOk`) or dropped (`recvDrop`), `save_resume_data_failed_alert`s
received (`recvFail`), scheduled write tasks that have run (`writesDone`),
scheduled delete tasks not yet run (`pendingDel`), and whether `_pop` has
ever run (`popped`). -/
structure RState where
  out : OutMap
  handles : List String
  aborted : Bool
  issued : String → Nat
  recvOk : String → Nat
  recvDrop : String → Nat
  recvFail : String → Nat
  writesDone : String → Nat
  pendingDel : String → Nat
  popped : String → Bool

def bump (f : String → Nat) (ih : String) : String → Nat :=
  fun x => if x = ih then f x + 1 else f x

def initRState : RState where
  out := { keys := [], val := fun _ => 0 }
  handles := []
  aborted := false
  issued := fun _ => 0
  recvOk := fun _ => 0
  recvDrop := fun _ => 0
  recvFail := fun _ => 0
  writesDone := fun _ => 0
  pendingDel := fun _ => 0
  popped := fun _ => false

/-- `flags = handle.only_if_modified; if flush: flags |= handle.flush_disk_cache`. -/
def saveFlags (flush : Bool) : Nat :=
  only_if_modified ||| (if flush then flush_disk_cache else 0)

/-- `ResumeService._save(ih, flush)`, also recording the engine calls made.
`invalid` is true when the engine raises `InvalidTorrentHandleError`, which
the method swallows (hence the total return type): the counter is then not
incremented.  With no handle for `ih`, the method returns without any call. -/
def saveCalls (s : RState) (ih : String) (invalid : Bool) (flush : Bool) :
    RState × List (String × Nat) :=
  if ih ∈ s.handles then
    if invalid then (s, [(ih, saveFlags flush)])
    else ({ s with out := s.out.inc ih, issued := bump s.issued ih },
          [(ih, saveFlags flush)])
  else (s, [])

def saveStep (s : RState) (ih : String) (invalid : Bool) (flush : Bool) :
    RState :=
  (saveCalls s ih invalid flush).1

/-- `ResumeService._save_all(flush)`: `_save` on every handle.  `invalids`
is the set of handles whose engine call raises invalid-handle. -/
def saveAllStep (s : RState) (invalids : List String) (flush : Bool) :
    RState :=
  s.handles.foldl (fun t ih => saveStep t ih (decide (ih ∈ invalids)) flush) s

/-- Number of saves in flight at the engine: issued calls minus terminal
alerts received for them. -/
def flying (s : RState) (ih : String) : Nat :=
  s.issued ih - (s.recvOk ih + s.recvDrop ih + s.recvFail ih)

/-- Atomic events of the ResumeService.  Alert deliveries, executor jobs and
direct calls each take the service lock, so an interleaving is a sequence of
these steps. -/
inductive RAct where
  | addTorrent (ih : String)
  | saveOnAlert (ih : String) (invalid : Bool)
  | tick (invalids : List String)
  | abort (invalids : List String)
  | recvSaveAlert (ih : String)
  | runWrite (ih : String)
  | recvFailAlert (ih : String)
  | recvRemovedAlert (ih : String)
  | runDelete (ih : String)

/-- One step of the service.  `none` means the step is not enabled: `abort`
asserts it runs once, alert steps require a matching engine call in flight
(the engine emits exactly one terminal alert per `save_resume_data` call),
and executor jobs require having been scheduled. -/
def applyAct (s : RState) (a : RAct) : Option RState :=
  match a with
  | .addTorrent ih =>
    some (if s.aborted then s else { s with handles := insertKey s.handles ih })
  | .saveOnAlert ih invalid => some (saveStep s ih invalid false)
  | .tick invalids => some (saveAllStep s invalids false)
  | .abort invalids =>
    if s.aborted then none
    else some (saveAllStep { s with aborted := true } invalids true)
  | .recvSaveAlert ih =>
    if flying s ih = 0 then none
    else some (if ih ∈ s.handles
      then { s with recvOk := bump s.recvOk ih }
      else { s with recvDrop := bump s.recvDrop ih })
  | .runWrite ih =>
    if s.writesDone ih < s.recvOk ih then
      some { s with writesDone := bump s.writesDone ih, out := s.out.dec ih }
    else none
  | .recvFailAlert ih =>
    if flying s ih = 0 then none
    else some { s with recvFail := bump s.recvFail ih, out := s.out.dec ih }
  | .recvRemovedAlert ih =>
    some { s with pendingDel := bump s.pendingDel ih }
  | .runDelete ih =>
    if s.pendingDel ih = 0 then none
    else some { s with
      pendingDel := fun x => if x = ih then s.pendingDel x - 1 else s.pendingDel x
      out := s.out.pop ih
      handles := eraseKey s.handles ih
      popped := fun x => if x = ih then true else s.popped x }

def runActs (acts : List RAct) : Option RState :=
  acts.foldlM applyAct initRState

def ReachableR (s : RState) : Prop :=
  ∃ acts, runActs acts = some s

/-- `ResumeService.done()`: `not self._outstanding`, i.e. the dict is empty.
`wait()` asserts `aborted` and then blocks on
`self._condition.wait_for(self.done)`, returning only once this is true. -/
def doneR (s : RState) : Bool :=
  s.out.keys.isEmpty

/-! ## The resume-data write task (tvaf/resume.py lines 127-151)

`_write_resume_data` runs `_write_resume_data_inner`, logs any `OSError`, and
decrements `outstanding[ih]` in a `finally`.  The inner function writes
`<ih>.tmp`, renames it over `<ih>.resume`, and unlinks the temp file in a
`finally`, ignoring `FileNotFoundError`.  Each filesystem call may raise
`OSError`, driven by an explicit oracle. -/

/-- The on-disk files for one infohash, plus whether the resume dir exists. -/
structure RFile where
  resume : Option Bytes
  tmp : Option Bytes
  dirExists : Bool
  deriving Repr, DecidableEq

/-- Outcome of `tmp_path.write_bytes`: success, or an `OSError` leaving some
partial file (or no file) behind. -/
inductive WriteRes where
  | ok
  | fail (leftover : Option Bytes)
  deriving Repr, DecidableEq

/-- Which of the filesystem calls of one `_write_resume_data` run raise
`OSError`. -/
structure WOracle where
  mkdirFail : Bool
  writeRes : WriteRes
  replaceFail : Bool
  unlinkFail : Bool
  deriving Repr, DecidableEq

/-- The `finally` cleanup: `tmp_path.unlink()` with `FileNotFoundError`
ignored.  `pendingErr` is whether the try body raised; an error raised by
`unlink` itself replaces it (Python `finally` semantics). -/
def runUnlink (o : WOracle) (f : RFile) (pendingErr : Bool) : RFile × Bool :=
  match f.tmp with
  | none => (f, pendingErr)
  | some _ => if o.unlinkFail then (f, true) else ({ f with tmp := none }, pendingErr)

/-- `_write_resume_data_inner(ih, atp)` acting on the files for `ih`.
Returns the resulting files and whether an `OSError` escaped. -/
def writeResumeInner (o : WOracle) (data : Bytes) (f : RFile) :
    RFile × Bool :=
  if o.mkdirFail then (f, true)
  else
    let f1 := { f with dirExists := true }
    match o.writeRes with
    | .fail leftover => runUnlink o { f1 with tmp := leftover } true
    | .ok =>
      let f2 := { f1 with tmp := some data }
      if o.replaceFail then runUnlink o f2 true
      else runUnlink o { f2 with resume := some data, tmp := none } false

/-- `_write_resume_data(ih, atp)`: the inner write with any `OSError` caught
and logged, and `_dec(ih)` in the `finally`. -/
def writeResumeData (o : WOracle) (data : Bytes) (f : RFile)
    (out : OutMap) (ih : String) : RFile × OutMap :=
  ((writeResumeInner o data f).1, out.dec ih)

/-! ## VFS traversal (spec §4.1)

Modelled from the spec: `tvaf/fs.py` is not in the source tree, only
`tests/fs_test.py`.  Nodes live in an arena indexed by `Nat`; a symlink
target is a node reference, a path string, or absent.  `traverse` follows
the spec's component rules with a visited set of symlink identities for loop
detection; `realpath` never fails and concatenates unresolved components. -/

inductive FKind where
  | file (size : Nat)
  | dir (children : List (String × Nat))
  | symlink (target : Option (Nat ⊕ String))
  deriving Repr

structure FNodeData where
  kind : FKind
  parent : Option Nat
  name : Option String
  deriving Repr

/-- The node arena: node `i` is `nodes.get? i`. -/
structure FGraph where
  nodes : List FNodeData
  deriving Repr

def kindOf (g : FGraph) (i : Nat) : Option FKind :=
  (g.nodes.get? i).map FNodeData.kind

def parentOf (g : FGraph) (i : Nat) : Option Nat :=
  (g.nodes.get? i).bind FNodeData.parent

def nameOf (g : FGraph) (i : Nat) : Option String :=
  (g.nodes.get? i).bind FNodeData.name

/-- `get_root()`: walk parents to the first null-parent node (fueled by the
arena size; parent chains of well-formed trees are shorter). -/
def rootAux (g : FGraph) : Nat → Nat → Nat
  | 0, i => i
  | fuel + 1, i =>
    match parentOf g i with
    | some p => rootAux g fuel p
    | none => i

def getRoot (g : FGraph) (i : Nat) : Nat :=
  rootAux g g.nodes.length i

/-- Absolute path of a node, as the list of names from the root down. -/
def absAux (g : FGraph) : Nat → Nat → List String → List String
  | 0, _, acc => acc
  | fuel + 1, i, acc =>
    match parentOf g i, nameOf g i with
    | some p, some n => absAux g fuel p (n :: acc)
    | _, _ => acc

def abspath (g : FGraph) (i : Nat) : List String :=
  absAux g g.nodes.length i []

/-- `path.split("/")` (structural, over the character list). -/
def splitPath (p : String) : List String :=
  (p.toList.splitOn '/').map (fun cs => String.mk cs)

/-- Whether the path string is absolute (`path.startswith("/")`). -/
def startsWithSlash (p : String) : Bool :=
  match p.toList with
  | [] => false
  | c :: _ => c == '/'

mutual

/-- Fully resolve a node: follow the symlink chain, recording each symlink
in `visited` and failing with `ELOOP` on a revisit, `EINVAL` on a null
target.  A string target re-parses relative to the symlink's parent. -/
def resolveNode (g : FGraph) (fuel : Nat) (i : Nat) (visited : List Nat) :
    Except Nat (Nat × List Nat) :=
  match fuel with
  | 0 => .error ELOOP
  | fuel' + 1 =>
    match kindOf g i with
    | some (.symlink tgt) =>
      if visited.contains i then .error ELOOP
      else
        match tgt with
        | none => .error EINVAL
        | some (.inl j) => resolveNode g fuel' j (i :: visited)
        | some (.inr str) =>
          match parentOf g i with
          | none => .error ENOENT
          | some p =>
            match traverseAux g fuel' p (splitPath str) (i :: visited) true with
            | .error e => .error e
            | .ok (r, visited') => .ok (r, visited')
    | some _ => .ok (i, visited)
    | none => .error ENOENT
termination_by fuel

/-- One traversal pass over the path components, per spec §4.1 rules 1-6. -/
def traverseAux (g : FGraph) (fuel : Nat) (cur : Nat) (comps : List String)
    (visited : List Nat) (follow : Bool) : Except Nat (Nat × List Nat) :=
  match fuel with
  | 0 => .error ELOOP
  | fuel' + 1 =>
    match comps with
    | [] => .ok (cur, visited)
    | c :: rest =>
      if c = "" ∨ c = "." then traverseAux g fuel' cur rest visited follow
      else if c = ".." then
        match kindOf g cur with
        | some (.dir _) =>
          match parentOf g cur with
          | some p => traverseAux g fuel' p rest visited follow
          | none => traverseAux g fuel' cur rest visited follow
        | some _ => .error ENOTDIR
        | none => .error ENOENT
      else
        match kindOf g cur with
        | some (.dir children) =>
          match children.lookup c with
          | none => .error ENOENT
          | some child =>
            if follow ∨ rest ≠ [] then
              match resolveNode g fuel' child visited with
              | .error e => .error e
              | .ok (r, visited') => traverseAux g fuel' r rest visited' follow
            else .ok (child, visited)
        | some _ => .error ENOTDIR
        | none => .error ENOENT
termination_by fuel

end

def traverseFuel (g : FGraph) (comps : List String) : Nat :=
  (comps.length + 2) * (g.nodes.length + 2)

/-- `Dir.traverse(path, follow_symlinks)`.  A leading `/` rebases at the
root.  The fuel is an embedding artifact: it is chosen large enough that a
genuine loop is reported by the visited set first. -/
def traverse (g : FGraph) (start : Nat) (path : String) (follow : Bool) :
    Except Nat Nat :=
  let comps := splitPath path
  let start' := if startsWithSlash path then getRoot g start else start
  (traverseAux g (traverseFuel g comps) start' comps [] follow).map Prod.fst

/-- Modelled from the spec: `realpath` walks as far as it can resolve and,
on a component that would fail (`ENOENT`, `ELOOP`, `ENOTDIR`, a bad
symlink), concatenates the remaining unresolved components onto the last
good node's absolute path.  It never fails. -/
def realpathAux (g : FGraph) : Nat → List String → List String
  | cur, [] => abspath g cur
  | cur, c :: rest =>
    if c = "" ∨ c = "." then realpathAux g cur rest
    else if c = ".." then
      match parentOf g cur with
      | some p => realpathAux g p rest
      | none => realpathAux g cur rest
    else
      match kindOf g cur with
      | some (.dir children) =>
        match children.lookup c with
        | none => abspath g cur ++ (c :: rest)
        | some child =>
          match resolveNode g (g.nodes.length + 2) child [] with
          | .error _ => abspath g cur ++ (c :: rest)
          | .ok (r, _) => realpathAux g r rest
      | _ => abspath g cur ++ (c :: rest)

def realpath (g : FGraph) (start : Nat) (path : String) : List String :=
  let comps := splitPath path
  let start' := if startsWithSlash path then getRoot g start else start
  realpathAux g start' comps

/-- Render an absolute path list the way `fs.Path` renders it. -/
def renderPath (l : List String) : String :=
  "/" ++ String.intercalate "/" l

/-- A nonempty closed set of node-target symlinks: every member is a symlink
whose target is again a member.  Any symlink cycle (in particular a
self-loop) is such a set. -/
def SymlinkLoopSet (g : FGraph) (ss : List Nat) : Prop :=
  ss ≠ [] ∧ ∀ x ∈ ss, ∃ y, y ∈ ss ∧ kindOf g x = some (.symlink (some (Sum.inl y)))

/-! ## Concrete instances used by counterexamples and witnesses,
and the statement-level invariants -/

/-- A 41-character stem that `re.match(r"[0-9a-f]{40}", ...)` accepts,
because `re.match` only anchors at the start. -/
def c3name : String :=
  "aaaaaaaaaaaaaaaaaaaaaaaaaaaaaaaaaaaaaaaaa.resume"

/-- Witness for C3's amended theorem at a concrete well-formed entry. -/
def c3good : ResumeDirEntry :=
  ⟨"0123456789012345678901234567890123456789.resume", .ok [2]⟩

/-- The trace refuting C2: a save is issued, then the torrent is removed and
the delete job pops the counter while the save's alert is still in flight. -/
def c2trace : List RAct :=
  [.addTorrent "a", .saveOnAlert "a" false, .recvRemovedAlert "a",
   .runDelete "a"]

/-- The trace for C2's witness: one save, its alert, and the write task. -/
def c2wtrace : List RAct :=
  [.addTorrent "a", .saveOnAlert "a" false, .recvSaveAlert "a",
   .runWrite "a"]

/-- All keys present in the dict have strictly positive counts. -/
def PosOut (m : OutMap) : Prop :=
  ∀ ih, ih ∈ m.keys → 0 < m.val ih

/-- Inductive invariant of the ResumeService state machine. -/
structure RInv (s : RState) : Prop where
  pos : PosOut s.out
  fly_ok : ∀ ih, s.recvOk ih + s.recvDrop ih + s.recvFail ih ≤ s.issued ih
  writes_le : ∀ ih, s.writesDone ih ≤ s.recvOk ih
  drop_pop : ∀ ih, s.popped ih = false → s.recvDrop ih = 0
  issued_h : ∀ ih, s.popped ih = false → s.issued ih ≠ 0 → ih ∈ s.handles
  count_eq : ∀ ih, s.popped ih = false →
    s.out.get ih = (s.issued ih : Int) - s.recvFail ih - s.writesDone ih

/-- Number of members of `ss` not yet in the visited set. -/
def unvisCount (ss visited : List Nat) : Nat :=
  (ss.filter (fun y => !(visited.contains y))).length

/-- The test tree: a root directory whose child `loop` is a self-looping
symlink. -/
def fsLoopGraph : FGraph :=
  ⟨[⟨.dir [("loop", 1)], none, none⟩,
    ⟨.symlink (some (.inl 1)), some 0, some "loop"⟩]⟩

/-! # Theorems -/

/-! ## C6: the FTP adapter is read-only -/

/-- C6: for every session state and path arguments, each mutating operation
of the FTP adapter (`mkstemp`, `mkdir`, `rmdir`, `rename`, `chmod`, `utime`)
fails with `OSError(EROFS)` built by `fs.mkoserror`; since each returns the
error without a successor state, no VFS node is modified. -/
theorem ftp_mutations_erofs (s : FtpFS) (p q m : String) (t : Int) :
    s.mkstemp = .error (mkoserror EROFS) ∧
    s.mkdir p = .error (mkoserror EROFS) ∧
    s.rmdir p = .error (mkoserror EROFS) ∧
    s.rename p q = .error (mkoserror EROFS) ∧
    s.chmod p m = .error (mkoserror EROFS) ∧
    s.utime p t = .error (mkoserror EROFS) :=
  ⟨rfl, rfl, rfl, rfl, rfl, rfl⟩

/-- Witness for C6 at a concrete session state. -/
theorem ftp_mutations_erofs_witness :
    FtpFS.mkdir ⟨0⟩ "x" = .error (mkoserror EROFS) :=
  (ftp_mutations_erofs ⟨0⟩ "x" "y" "m" 0).2.1

/-! ## C3: the startup scanner's filename filter -/


/-- Counterexample to C3: a file whose stem has 41 characters (so is not
exactly a 40-character hex name) is still yielded by the scanner, because
`re.match` is a prefix match. -/
theorem iter_resume_not_exact_forty :
    iterResumeDataFromDisk (fun b => Except.ok b) true
        [⟨c3name, .ok [1]⟩] = [[1]] ∧
      (pyStem c3name).toList.length = 41 := by
  constructor
  · rfl
  · rfl

/-- The per-entry filter of the scanner, characterized. -/
theorem yieldOfEntry_eq_some {α : Type} (parse : Bytes → Except Unit α)
    (e : ResumeDirEntry) (blob : α) :
    yieldOfEntry parse e = some blob ↔
      pySuffixes e.name = [".resume"] ∧
      reMatchHex40 (pyStem e.name) = true ∧
      ∃ data, e.readResult = .ok data ∧ parse data = .ok blob := by
  unfold yieldOfEntry
  by_cases h1 : pySuffixes e.name = [".resume"]
  · by_cases h2 : reMatchHex40 (pyStem e.name) = true
    · cases hr : e.readResult with
      | error err => simp [h1, h2, hr]
      | ok data =>
        cases hp : parse data with
        | error u => simp [h1, h2, hr, hp]
        | ok b => simp [h1, h2, hr, hp, eq_comm]
    · simp [h1, h2]
  · simp [h1]

/-- C3 (amended): the scanner yields a decoded blob exactly for entries with
a single suffix `.resume` and a stem whose first forty characters are
lowercase hex (`re.match` anchors at the start only, so longer stems pass),
that read without `OSError` and decode without parse error; every other
entry is skipped, and a failing entry never aborts the scan (the scanner
returns a plain list). -/
theorem iter_resume_characterization {α : Type} (parse : Bytes → Except Unit α)
    (isDir : Bool) (entries : List ResumeDirEntry) (blob : α) :
    blob ∈ iterResumeDataFromDisk parse isDir entries ↔
      (isDir = true ∧ ∃ e ∈ entries,
        pySuffixes e.name = [".resume"] ∧
        reMatchHex40 (pyStem e.name) = true ∧
        ∃ data, e.readResult = .ok data ∧ parse data = .ok blob) := by
  unfold iterResumeDataFromDisk
  cases isDir with
  | false => simp
  | true =>
    rw [if_pos rfl]
    simp only [List.mem_filterMap, eq_self_iff_true, true_and]
    constructor
    · rintro ⟨e, he, hy⟩
      exact ⟨e, he, (yieldOfEntry_eq_some parse e blob).mp hy⟩
    · rintro ⟨e, he, hy⟩
      exact ⟨e, he, (yieldOfEntry_eq_some parse e blob).mpr hy⟩


theorem iter_resume_characterization_witness :
    ([2] : Bytes) ∈ iterResumeDataFromDisk (fun b => Except.ok b) true [c3good] := by
  exact (iter_resume_characterization (fun b => Except.ok b) true [c3good]
    [2]).mpr ⟨rfl, c3good, List.mem_singleton.mpr rfl, rfl, rfl, [2], rfl, rfl⟩

/-! ## C8: child termination and join order -/

/-- Counterexample to C8: with children added in order `[0, 1]`, the
identity order is a legal iteration order of the `weakref.WeakSet` snapshot,
and then `_run_wrapper` joins in order `[0, 1]`, not in the reverse add
order `[1, 0]`. -/
theorem runWrapper_join_not_reverse :
    List.Perm [0, 1] [0, 1] ∧
    joinSeq (runWrapperEvents [0, 1] [0, 1]) = [0, 1] ∧
    joinSeq (runWrapperEvents [0, 1] [0, 1]) ≠ List.reverse [0, 1] := by
  refine ⟨List.Perm.refl _, rfl, ?_⟩
  decide

/-- C8 (amended): when `_run` completes, the parent terminates every child
and afterwards joins every child; both loops iterate a `WeakSet` snapshot,
i.e. an unspecified permutation of the children added, and every
termination precedes every join — but the join order is not in general the
reverse of the add order. -/
theorem runWrapper_terminates_then_joins (added iter1 iter2 : List Nat)
    (h1 : iter1.Perm added) (h2 : iter2.Perm added) :
    termSeq (runWrapperEvents iter1 iter2) = iter1 ∧
    joinSeq (runWrapperEvents iter1 iter2) = iter2 ∧
    (termSeq (runWrapperEvents iter1 iter2)).Perm added ∧
    (joinSeq (runWrapperEvents iter1 iter2)).Perm added ∧
    runWrapperEvents iter1 iter2 =
      (termSeq (runWrapperEvents iter1 iter2)).map TEvent.terminate ++
        (joinSeq (runWrapperEvents iter1 iter2)).map TEvent.join := by
  have e1 : ∀ l : List Nat, (l.map TEvent.terminate).filterMap termOf = l := by
    intro l; induction l with
    | nil => rfl
    | cons a t iht => simp [termOf, iht]
  have e2 : ∀ l : List Nat, (l.map TEvent.join).filterMap termOf = [] := by
    intro l; induction l with
    | nil => rfl
    | cons a t iht => simp [termOf, iht]
  have e3 : ∀ l : List Nat, (l.map TEvent.terminate).filterMap joinOf = [] := by
    intro l; induction l with
    | nil => rfl
    | cons a t iht => simp [joinOf, iht]
  have e4 : ∀ l : List Nat, (l.map TEvent.join).filterMap joinOf = l := by
    intro l; induction l with
    | nil => rfl
    | cons a t iht => simp [joinOf, iht]
  have hterm : termSeq (runWrapperEvents iter1 iter2) = iter1 := by
    simp [termSeq, runWrapperEvents, List.filterMap_append, e1, e2]
  have hjoin : joinSeq (runWrapperEvents iter1 iter2) = iter2 := by
    simp [joinSeq, runWrapperEvents, List.filterMap_append, e3, e4]
  refine ⟨hterm, hjoin, ?_, ?_, ?_⟩
  · rw [hterm]; exact h1
  · rw [hjoin]; exact h2
  · rw [hterm, hjoin]; rfl

/-- Witness for C8's amended theorem on two children with swapped snapshots. -/
theorem runWrapper_terminates_then_joins_witness :
    termSeq (runWrapperEvents [1, 0] [1, 0]) = [1, 0] ∧
    joinSeq (runWrapperEvents [1, 0] [1, 0]) = [1, 0] ∧
    (termSeq (runWrapperEvents [1, 0] [1, 0])).Perm [0, 1] ∧
    (joinSeq (runWrapperEvents [1, 0] [1, 0])).Perm [0, 1] ∧
    runWrapperEvents [1, 0] [1, 0] =
      (termSeq (runWrapperEvents [1, 0] [1, 0])).map TEvent.terminate ++
        (joinSeq (runWrapperEvents [1, 0] [1, 0])).map TEvent.join :=
  runWrapper_terminates_then_joins [0, 1] [1, 0] [1, 0] (by decide) (by decide)

/-! ## C9: padding files are hidden but keep indices -/

/-- C9: a padding file is absent from the by-index listing, looking its
index up fails with `ENOENT`, and no by-path entry refers to it, while a
non-padding file stays listed under its original index; in particular for
files `[normal, padding, normal]` the by-index listing is `["0", "2"]`.
(Modelled from the spec, `tvaf/library.py` not being in the tree.) -/
theorem padding_hidden_keeps_indices (files : List TFile) (i : Nat)
    (f : TFile) (hf : files.get? i = some f) :
    (f.isPad = true →
      i ∉ byIndexIndices files ∧
      (∀ s : String, parseDecimal s = some i →
        byIndexLookup files s = .error ENOENT) ∧
      (∀ e ∈ byPathEntries files, e.2 ≠ i)) ∧
    (f.isPad = false → i ∈ byIndexIndices files) ∧
    byIndexNames [⟨["n1"], false, 1⟩, ⟨["p"], true, 2⟩, ⟨["n2"], false, 3⟩] =
      ["0", "2"] := by
  refine ⟨?_, ?_, rfl⟩
  · intro hpad
    refine ⟨?_, ?_, ?_⟩
    · intro hmem
      rcases List.mem_map.mp hmem with ⟨⟨j, fj⟩, hjf, hj⟩
      rcases List.mem_filter.mp hjf with ⟨hje, hnp⟩
      cases hj
      have : fj = f := by
        have := List.mem_enum_iff_get?.mp hje
        rw [hf] at this; exact (Option.some.inj this).symm
      rw [this, hpad] at hnp
      exact absurd hnp (by decide)
    · intro s hs
      have hf2 : files[i]? = some f := by
        rw [← List.get?_eq_getElem?]; exact hf
      simp [byIndexLookup, hs, hf, hf2, hpad]
    · intro e he hei
      simp only [byPathEntries] at he
      rcases List.mem_map.mp he with ⟨⟨j, fj⟩, hjf, hj⟩
      have hj2 : j = e.2 := by rw [← hj]
      rcases List.mem_filter.mp hjf with ⟨hjc, _⟩
      rcases List.mem_filter.mp hjc with ⟨hje, hprop⟩
      have : fj = f := by
        have := List.mem_enum_iff_get?.mp hje
        rw [hj2, hei, hf] at this; exact (Option.some.inj this).symm
      rw [this, hpad] at hprop
      simp at hprop
  · intro hnp
    unfold byIndexIndices
    refine List.mem_map.mpr ⟨(i, f), ?_, rfl⟩
    refine List.mem_filter.mpr ⟨List.mem_enum_iff_get?.mpr hf, ?_⟩
    rw [hnp]; rfl

/-- Witness for C9 at the spec's `[normal, padding, normal]` torrent. -/
theorem padding_hidden_keeps_indices_witness :
    (1 ∉ byIndexIndices
        [⟨["n1"], false, 1⟩, ⟨["p"], true, 2⟩, ⟨["n2"], false, 3⟩]) ∧
    byIndexLookup
        [⟨["n1"], false, 1⟩, ⟨["p"], true, 2⟩, ⟨["n2"], false, 3⟩] "1" =
      .error ENOENT := by
  have h := padding_hidden_keeps_indices
    [⟨["n1"], false, 1⟩, ⟨["p"], true, 2⟩, ⟨["n2"], false, 3⟩] 1
    ⟨["p"], true, 2⟩ rfl
  exact ⟨(h.1 rfl).1, (h.1 rfl).2.1 "1" (by decide)⟩

/-! ## C1: crash safety of the resume write task -/

/-- Counterexample to C1: when the rename fails and the cleanup `unlink`
itself fails with an error other than `FileNotFoundError`, the `<ih>.tmp`
file remains on disk — C1's "in every outcome no `<ih>.tmp` file remains"
does not hold.  (The old `<ih>.resume` is still unchanged, and the counter
is still decremented once.) -/
theorem write_resume_tmp_can_remain :
    ((writeResumeInner ⟨false, .ok, true, true⟩ [1] ⟨some [7], none, true⟩).1).tmp =
        some [1] ∧
      ((writeResumeInner ⟨false, .ok, true, true⟩ [1] ⟨some [7], none, true⟩).1).resume =
        some [7] ∧
      (writeResumeInner ⟨false, .ok, true, true⟩ [1] ⟨some [7], none, true⟩).2 =
        true :=
  ⟨rfl, rfl, rfl⟩

/-- C1 (amended): the write task writes the bencoded data to `<ih>.tmp` and
atomically renames it to `<ih>.resume`; whenever an `OSError` escapes the
inner function, the previously existing `<ih>.resume` is unchanged; on
success the resume file holds the new data and no temp file remains;
starting without a leftover temp file, no `<ih>.tmp` remains afterwards
provided the cleanup `unlink` does not itself fail; and `outstanding[ih]`
is decremented exactly once in every outcome. -/
theorem write_resume_crash_safety (o : WOracle) (data : Bytes) (f : RFile)
    (out : OutMap) (ih : String) :
    (writeResumeData o data f out ih).2 = out.dec ih ∧
    ((writeResumeInner o data f).2 = true →
      ((writeResumeInner o data f).1).resume = f.resume) ∧
    ((writeResumeInner o data f).2 = false →
      ((writeResumeInner o data f).1).resume = some data ∧
      ((writeResumeInner o data f).1).tmp = none) ∧
    (f.tmp = none → o.unlinkFail = false →
      ((writeResumeInner o data f).1).tmp = none) := by
  obtain ⟨mk, wr, rp, ul⟩ := o
  refine ⟨rfl, ?_⟩
  cases mk <;> rcases wr with _ | ⟨_ | l⟩ <;> cases rp <;> cases ul <;>
    simp [writeResumeInner, runUnlink]

/-- Witness for C1's amended theorem: the all-success oracle. -/
theorem write_resume_crash_safety_witness :
    ((writeResumeInner ⟨false, .ok, false, false⟩ [1] ⟨some [7], none, true⟩).1).tmp =
        none ∧
      (writeResumeData ⟨false, .ok, false, false⟩ [1] ⟨some [7], none, true⟩
          { keys := [], val := fun _ => 0 } "h").2 =
        OutMap.dec { keys := [], val := fun _ => 0 } "h" := by
  have h := write_resume_crash_safety ⟨false, .ok, false, false⟩ [1]
    ⟨some [7], none, true⟩ { keys := [], val := fun _ => 0 } "h"
  exact ⟨h.2.2.2 rfl rfl, h.1⟩

/-! ## OutMap helper lemmas -/

theorem mem_insertKey (ks : List String) (ih jh : String) :
    jh ∈ insertKey ks ih ↔ jh ∈ ks ∨ jh = ih := by
  unfold insertKey
  split
  · constructor
    · exact fun h => Or.inl h
    · rintro (h | rfl)
      · exact h
      · assumption
  · simp [or_comm]

theorem mem_eraseKey (ks : List String) (ih jh : String) :
    jh ∈ eraseKey ks ih ↔ jh ∈ ks ∧ jh ≠ ih := by
  unfold eraseKey
  simp [List.mem_filter]

theorem get_inc_self (m : OutMap) (ih : String) :
    (m.inc ih).get ih = m.get ih + 1 := by
  unfold OutMap.inc OutMap.get
  simp [mem_insertKey]

theorem get_inc_other (m : OutMap) (ih jh : String) (h : jh ≠ ih) :
    (m.inc ih).get jh = m.get jh := by
  unfold OutMap.inc OutMap.get
  simp only [mem_insertKey, h, or_false, if_neg]
  simp [h]

theorem get_dec_self_pos (m : OutMap) (ih : String) (h : 0 < m.get ih) :
    (m.dec ih).get ih = m.get ih - 1 := by
  unfold OutMap.dec
  by_cases hv : m.get ih - 1 ≤ 0
  · have h1 : m.get ih = 1 := by omega
    simp only [hv, if_pos]
    unfold OutMap.get at h1 ⊢
    simp [mem_eraseKey]
    omega
  · simp only [hv, if_neg, not_false_iff]
    unfold OutMap.get
    simp [mem_insertKey]

theorem get_dec_other (m : OutMap) (ih jh : String) (h : jh ≠ ih) :
    (m.dec ih).get jh = m.get jh := by
  unfold OutMap.dec
  by_cases hv : m.get ih - 1 ≤ 0
  · simp only [hv, if_pos]
    unfold OutMap.get
    simp [mem_eraseKey, h]
  · simp only [hv, if_neg, not_false_iff]
    unfold OutMap.get
    simp [mem_insertKey, h]

theorem get_pop_self (m : OutMap) (ih : String) : (m.pop ih).get ih = 0 := by
  unfold OutMap.pop OutMap.get
  simp [mem_eraseKey]

theorem get_pop_other (m : OutMap) (ih jh : String) (h : jh ≠ ih) :
    (m.pop ih).get jh = m.get jh := by
  unfold OutMap.pop OutMap.get
  simp [mem_eraseKey, h]


theorem get_nonneg (m : OutMap) (h : PosOut m) (ih : String) :
    0 ≤ m.get ih := by
  unfold OutMap.get
  split
  · exact le_of_lt (h ih (by assumption))
  · exact le_refl 0

theorem posOut_inc (m : OutMap) (ih : String) (h : PosOut m) :
    PosOut (m.inc ih) := by
  intro jh hc
  by_cases hj : jh = ih
  · subst hj
    have h0 := get_nonneg m h jh
    show 0 < (m.inc jh).val jh
    simp only [OutMap.inc]
    simp
    omega
  · show 0 < (m.inc ih).val jh
    have hv : (m.inc ih).val jh = m.val jh := by
      simp [OutMap.inc, hj]
    rw [hv]
    refine h jh ?_
    have hm : jh ∈ insertKey m.keys ih := hc
    exact ((mem_insertKey m.keys ih jh).mp hm).resolve_right hj

theorem posOut_dec (m : OutMap) (ih : String) (h : PosOut m) :
    PosOut (m.dec ih) := by
  intro jh hc
  unfold OutMap.dec at hc ⊢
  by_cases hv : m.get ih - 1 ≤ 0
  · simp only [hv, if_pos] at hc ⊢
    rw [mem_eraseKey] at hc
    exact h jh hc.1
  · simp only [hv, if_neg, not_false_iff] at hc ⊢
    by_cases hj : jh = ih
    · subst hj
      show 0 < (if jh = jh then m.get jh - 1 else m.val jh)
      simp
      omega
    · show 0 < (if jh = ih then m.get ih - 1 else m.val jh)
      simp only [hj, if_neg, not_false_iff]
      refine h jh ?_
      have hm : jh ∈ insertKey m.keys ih := hc
      exact ((mem_insertKey m.keys ih jh).mp hm).resolve_right hj

theorem posOut_pop (m : OutMap) (ih : String) (h : PosOut m) :
    PosOut (m.pop ih) := by
  intro jh hc
  unfold OutMap.pop at hc
  rw [mem_eraseKey] at hc
  exact h jh hc.1

theorem bump_self (f : String → Nat) (ih : String) : bump f ih ih = f ih + 1 := by
  simp [bump]

theorem bump_other (f : String → Nat) (ih jh : String) (h : jh ≠ ih) :
    bump f ih jh = f jh := by
  simp [bump, h]

/-! ## The ResumeService counting invariant -/


theorem rinv_saveStep (s : RState) (ih : String) (invalid flush : Bool)
    (h : RInv s) : RInv (saveStep s ih invalid flush) := by
  by_cases hh : ih ∈ s.handles
  · cases invalid with
    | true =>
      have hs : saveStep s ih true flush = s := by
        simp [saveStep, saveCalls, hh]
      rw [hs]; exact h
    | false =>
      have hs : saveStep s ih false flush =
          { s with out := s.out.inc ih, issued := bump s.issued ih } := by
        simp [saveStep, saveCalls, hh]
      rw [hs]
      refine ⟨posOut_inc _ _ h.pos, ?_, h.writes_le, h.drop_pop, ?_, ?_⟩ <;>
        dsimp only
      · intro jh
        by_cases hj : jh = ih
        · subst hj
          rw [bump_self]
          exact le_trans (h.fly_ok jh) (by omega)
        · rw [bump_other _ _ _ hj]
          exact h.fly_ok jh
      · intro jh hp hne
        by_cases hj : jh = ih
        · subst hj; exact hh
        · rw [bump_other _ _ _ hj] at hne
          exact h.issued_h jh hp hne
      · intro jh hp
        by_cases hj : jh = ih
        · subst hj
          rw [get_inc_self, bump_self, h.count_eq jh hp]
          push_cast
          ring
        · rw [get_inc_other _ _ _ hj, bump_other _ _ _ hj]
          exact h.count_eq jh hp
  · have hs : saveStep s ih invalid flush = s := by
      simp [saveStep, saveCalls, hh]
    rw [hs]; exact h

theorem rinv_abortedFlag (s : RState) (h : RInv s) :
    RInv { s with aborted := true } :=
  ⟨h.pos, h.fly_ok, h.writes_le, h.drop_pop, h.issued_h, h.count_eq⟩

theorem rinv_saveAll (s : RState) (invs : List String) (flush : Bool)
    (h : RInv s) : RInv (saveAllStep s invs flush) := by
  unfold saveAllStep
  generalize s.handles = l
  induction l generalizing s with
  | nil => exact h
  | cons a t iht =>
    exact iht (saveStep s a (decide (a ∈ invs)) flush)
      (rinv_saveStep s a _ flush h)

theorem rinv_apply (s : RState) (a : RAct) (t : RState) (h : RInv s)
    (ha : applyAct s a = some t) : RInv t := by
  cases a with
  | addTorrent ih =>
    simp only [applyAct] at ha
    injection ha with ha
    subst ha
    by_cases hab : s.aborted
    · rw [if_pos hab]; exact h
    · rw [if_neg hab]
      refine ⟨h.pos, h.fly_ok, h.writes_le, h.drop_pop, ?_, h.count_eq⟩
      intro jh hp hne
      exact (mem_insertKey s.handles ih jh).mpr (Or.inl (h.issued_h jh hp hne))
  | saveOnAlert ih invalid =>
    simp only [applyAct] at ha
    injection ha with ha
    subst ha
    exact rinv_saveStep s ih invalid false h
  | tick invs =>
    simp only [applyAct] at ha
    injection ha with ha
    subst ha
    exact rinv_saveAll s invs false h
  | abort invs =>
    simp only [applyAct] at ha
    by_cases hab : s.aborted
    · rw [if_pos hab] at ha; cases ha
    · rw [if_neg hab] at ha
      injection ha with ha
      subst ha
      exact rinv_saveAll _ invs true (rinv_abortedFlag s h)
  | recvSaveAlert ih =>
    simp only [applyAct] at ha
    by_cases hg : flying s ih = 0
    · rw [if_pos hg] at ha; cases ha
    · rw [if_neg hg] at ha
      injection ha with ha
      subst ha
      have hfl : s.recvOk ih + s.recvDrop ih + s.recvFail ih < s.issued ih := by
        unfold flying at hg
        have := h.fly_ok ih
        omega
      by_cases hh : ih ∈ s.handles
      · rw [if_pos hh]
        refine ⟨h.pos, ?_, ?_, h.drop_pop, h.issued_h, h.count_eq⟩ <;>
          dsimp only
        · intro jh
          by_cases hj : jh = ih
          · subst hj; rw [bump_self]; omega
          · rw [bump_other _ _ _ hj]; exact h.fly_ok jh
        · intro jh
          by_cases hj : jh = ih
          · subst hj; rw [bump_self]
            exact le_trans (h.writes_le jh) (by omega)
          · rw [bump_other _ _ _ hj]; exact h.writes_le jh
      · rw [if_neg hh]
        refine ⟨h.pos, ?_, h.writes_le, ?_, h.issued_h, h.count_eq⟩ <;>
          dsimp only
        · intro jh
          by_cases hj : jh = ih
          · subst hj; rw [bump_self]; omega
          · rw [bump_other _ _ _ hj]; exact h.fly_ok jh
        · intro jh hp
          by_cases hj : jh = ih
          · subst hj
            exact absurd (h.issued_h jh hp (by omega)) hh
          · rw [bump_other _ _ _ hj]; exact h.drop_pop jh hp
  | runWrite ih =>
    simp only [applyAct] at ha
    by_cases hg : s.writesDone ih < s.recvOk ih
    · rw [if_pos hg] at ha
      injection ha with ha
      subst ha
      refine ⟨posOut_dec _ _ h.pos, h.fly_ok, ?_, h.drop_pop, h.issued_h, ?_⟩ <;>
        dsimp only
      · intro jh
        by_cases hj : jh = ih
        · subst hj; rw [bump_self]; omega
        · rw [bump_other _ _ _ hj]; exact h.writes_le jh
      · intro jh hp
        by_cases hj : jh = ih
        · subst hj
          have hEq := h.count_eq jh hp
          have hfo := h.fly_ok jh
          have hpos : 0 < s.out.get jh := by rw [hEq]; push_cast; omega
          rw [get_dec_self_pos _ _ hpos, bump_self, hEq]
          push_cast
          ring
        · rw [get_dec_other _ _ _ hj, bump_other _ _ _ hj]
          exact h.count_eq jh hp
    · rw [if_neg hg] at ha; cases ha
  | recvFailAlert ih =>
    simp only [applyAct] at ha
    by_cases hg : flying s ih = 0
    · rw [if_pos hg] at ha; cases ha
    · rw [if_neg hg] at ha
      injection ha with ha
      subst ha
      have hfl : s.recvOk ih + s.recvDrop ih + s.recvFail ih < s.issued ih := by
        unfold flying at hg
        have := h.fly_ok ih
        omega
      refine ⟨posOut_dec _ _ h.pos, ?_, h.writes_le, h.drop_pop, h.issued_h, ?_⟩ <;>
        dsimp only
      · intro jh
        by_cases hj : jh = ih
        · subst hj; rw [bump_self]; omega
        · rw [bump_other _ _ _ hj]; exact h.fly_ok jh
      · intro jh hp
        by_cases hj : jh = ih
        · subst hj
          have hEq := h.count_eq jh hp
          have hwl := h.writes_le jh
          have hpos : 0 < s.out.get jh := by rw [hEq]; push_cast; omega
          rw [get_dec_self_pos _ _ hpos, bump_self, hEq]
          push_cast
          ring
        · rw [get_dec_other _ _ _ hj, bump_other _ _ _ hj]
          exact h.count_eq jh hp
  | recvRemovedAlert ih =>
    simp only [applyAct] at ha
    injection ha with ha
    subst ha
    exact ⟨h.pos, h.fly_ok, h.writes_le, h.drop_pop, h.issued_h, h.count_eq⟩
  | runDelete ih =>
    simp only [applyAct] at ha
    by_cases hg : s.pendingDel ih = 0
    · rw [if_pos hg] at ha; cases ha
    · rw [if_neg hg] at ha
      injection ha with ha
      subst ha
      refine ⟨posOut_pop _ _ h.pos, h.fly_ok, h.writes_le, ?_, ?_, ?_⟩ <;>
        dsimp only
      · intro jh hp
        by_cases hj : jh = ih
        · subst hj; simp at hp
        · simp only [hj, if_neg, not_false_iff] at hp
          exact h.drop_pop jh hp
      · intro jh hp hne
        by_cases hj : jh = ih
        · subst hj; simp at hp
        · simp only [hj, if_neg, not_false_iff] at hp
          exact (mem_eraseKey s.handles ih jh).mpr ⟨h.issued_h jh hp hne, hj⟩
      · intro jh hp
        by_cases hj : jh = ih
        · subst hj; simp at hp
        · simp only [hj, if_neg, not_false_iff] at hp
          rw [get_pop_other _ _ _ hj]
          exact h.count_eq jh hp

theorem rinv_init : RInv initRState := by
  refine ⟨?_, ?_, ?_, ?_, ?_, ?_⟩ <;>
    intro ih <;> simp [initRState, OutMap.get]

theorem rinv_run (acts : List RAct) :
    ∀ t s : RState, RInv t → List.foldlM applyAct t acts = some s → RInv s := by
  induction acts with
  | nil =>
    intro t s h hr
    simp only [List.foldlM_nil] at hr
    injection hr with hr
    subst hr
    exact h
  | cons a rest iht =>
    intro t s h hr
    simp only [List.foldlM_cons] at hr
    cases hap : applyAct t a with
    | none => rw [hap] at hr; cases hr
    | some t' =>
      rw [hap] at hr
      exact iht t' s (rinv_apply t a t' h hap) hr

theorem rinv_reachable (s : RState) (h : ReachableR s) : RInv s := by
  obtain ⟨acts, hacts⟩ := h
  exact rinv_run acts initRState s rinv_init hacts

/-! ## C4: `done()` and `wait()` -/

/-- C4: in every reachable ResumeService state, `done()` (the `_outstanding`
dict being empty) holds iff every outstanding counter reads zero; `wait()`
asserts `aborted` and returns from `wait_for(self.done)` only once `done()`
is true, hence only when every counter is zero. -/
theorem done_iff_all_zero (s : RState) (h : ReachableR s) :
    (doneR s = true) ↔ ∀ ih, s.out.get ih = 0 := by
  have hinv := rinv_reachable s h
  constructor
  · intro hd ih
    unfold doneR at hd
    rw [List.isEmpty_iff] at hd
    unfold OutMap.get
    simp [hd]
  · intro hz
    unfold doneR
    cases hk : s.out.keys with
    | nil => simp [hk]
    | cons k rest =>
      have hmem : k ∈ s.out.keys := by
        rw [hk]; exact List.mem_cons_self k rest
      have hpos := hinv.pos k hmem
      have hzk := hz k
      unfold OutMap.get at hzk
      rw [if_pos hmem] at hzk
      omega

/-- Witness for C4 at the initial (empty, hence reachable) state. -/
theorem done_iff_all_zero_witness :
    (doneR initRState = true) ↔ ∀ ih, initRState.out.get ih = 0 :=
  done_iff_all_zero initRState ⟨[], rfl⟩

/-! ## C10: present keys are positive; spurious decrements are no-ops -/

/-- C10: in every reachable state, every key present in `_outstanding` has a
strictly positive count (`_inc`, `_dec` and `_pop` preserve this, `_dec`
deleting the key at zero and `_pop` removing it unconditionally); and a
`save_resume_data_failed_alert` for an infohash with no outstanding save
(`_dec` on a zero count) leaves the map unchanged instead of storing a
negative count. -/
theorem outstanding_positive_dec_noop (s : RState) (h : ReachableR s) :
    (∀ ih, ih ∈ s.out.keys → 0 < s.out.val ih) ∧
    (∀ ih, s.out.get ih = 0 → s.out.dec ih = s.out) := by
  have hinv := rinv_reachable s h
  refine ⟨hinv.pos, ?_⟩
  intro ih hz
  have hnm : ih ∉ s.out.keys := by
    intro hm
    have := hinv.pos ih hm
    unfold OutMap.get at hz
    rw [if_pos hm] at hz
    omega
  unfold OutMap.dec
  have hv : s.out.get ih - 1 ≤ 0 := by rw [hz]; omega
  rw [if_pos hv]
  have he : eraseKey s.out.keys ih = s.out.keys := by
    unfold eraseKey
    apply List.filter_eq_self.mpr
    intro a ha
    have : a ≠ ih := fun hai => hnm (hai ▸ ha)
    simp [this]
  rw [he]

/-- Witness for C10 at the initial (reachable) state. -/
theorem outstanding_positive_dec_noop_witness :
    (∀ ih, ih ∈ initRState.out.keys → 0 < initRState.out.val ih) ∧
    (∀ ih, initRState.out.get ih = 0 →
      initRState.out.dec ih = initRState.out) :=
  outstanding_positive_dec_noop initRState ⟨[], rfl⟩

/-! ## C2: the outstanding counter vs. issued saves and terminal alerts -/


/-- Counterexample to C2: after `c2trace`, one save was issued for `"a"` and
no terminal alert was received, so the claimed equation demands
`outstanding["a"] = 1 - 0 ≠ 0`, yet `_pop` has cleared the counter to zero
(and a save is still in flight while the counter reads zero, refuting the
"zero iff no save in flight" part as well). -/
theorem outstanding_equation_fails_after_pop :
    (runActs c2trace).map
        (fun s => (s.issued "a",
          s.recvOk "a" + s.recvDrop "a" + s.recvFail "a",
          s.out.get "a", flying s "a")) = some (1, 0, 0, 1) ∧
      (1 : Int) - (0 : Int) ≠ 0 := by
  exact ⟨rfl, by decide⟩

/-- C2 (amended): for every reachable state and infohash for which no
removal (`_pop`) has been processed and every scheduled write task has run,
the service has received no dropped alerts for it and
`outstanding[ih] = (saves issued) - (matching terminal alerts received)`,
and the counter is zero iff no save is in flight; after a `_pop` the counter
is cleared early, and a `save_resume_data_alert` arriving for the removed
torrent is dropped without a decrement. -/
theorem outstanding_counter_conservation (s : RState) (h : ReachableR s)
    (ih : String) (hpop : s.popped ih = false)
    (hw : s.writesDone ih = s.recvOk ih) :
    s.recvDrop ih = 0 ∧
    s.out.get ih = (s.issued ih : Int) - (s.recvOk ih + s.recvFail ih) ∧
    (s.out.get ih = 0 ↔ flying s ih = 0) := by
  have hinv := rinv_reachable s h
  have hdrop := hinv.drop_pop ih hpop
  have hcnt := hinv.count_eq ih hpop
  have hfly := hinv.fly_ok ih
  refine ⟨hdrop, ?_, ?_⟩
  · rw [hcnt, hw]; push_cast; ring
  · unfold flying
    rw [hcnt, hw, hdrop]
    omega


/-- Witness for C2's amended theorem, at the state reached by `c2wtrace`. -/
theorem outstanding_counter_conservation_witness :
    ∃ s : RState, ReachableR s ∧ s.popped "a" = false ∧
      s.writesDone "a" = s.recvOk "a" ∧ s.recvDrop "a" = 0 ∧
      s.out.get "a" = (s.issued "a" : Int) -
        (s.recvOk "a" + s.recvFail "a") := by
  cases hr : runActs c2wtrace with
  | none =>
    have hsome : (runActs c2wtrace).isSome = true := rfl
    rw [hr] at hsome
    cases hsome
  | some s =>
    have hre : ReachableR s := ⟨c2wtrace, hr⟩
    have hp : Option.map (fun t => t.popped "a") (runActs c2wtrace) =
        some false := rfl
    have hwr : Option.map (fun t => (t.writesDone "a", t.recvOk "a"))
        (runActs c2wtrace) = some (1, 1) := rfl
    rw [hr] at hp hwr
    simp only [Option.map_some', Option.some.injEq, Prod.mk.injEq] at hp hwr
    have hw : s.writesDone "a" = s.recvOk "a" := by rw [hwr.1, hwr.2]
    have h := outstanding_counter_conservation s hre "a" hp hw
    exact ⟨s, hre, hp, hw, h.1, h.2.1⟩

/-! ## C7: `_save` issues the engine call and counts it -/

/-- C7: with a handle present and no engine error, `_save(ih, flush)` calls
`save_resume_data` once with flags containing `only_if_modified` (bit 2) and
`flush_disk_cache` (bit 0) exactly when `flush` is set, then increments
`outstanding[ih]` by one; an `InvalidTorrentHandleError` is swallowed
(`_save` returns normally) and the counter is not incremented; with no
handle, `_save` is a no-op making no engine call. -/
theorem save_increments_or_swallows (s : RState) (ih : String)
    (invalid flush : Bool) :
    (ih ∈ s.handles → invalid = false →
      (saveCalls s ih invalid flush).2 = [(ih, saveFlags flush)] ∧
      (saveStep s ih invalid flush).out.get ih = s.out.get ih + 1 ∧
      (saveStep s ih invalid flush).issued ih = s.issued ih + 1) ∧
    (ih ∈ s.handles → invalid = true →
      (saveCalls s ih invalid flush).2 = [(ih, saveFlags flush)] ∧
      saveStep s ih invalid flush = s) ∧
    (ih ∉ s.handles → saveCalls s ih invalid flush = (s, [])) ∧
    Nat.testBit (saveFlags flush) 2 = true ∧
    Nat.testBit (saveFlags flush) 0 = flush := by
  refine ⟨?_, ?_, ?_, ?_, ?_⟩
  · intro hh hi
    subst hi
    have hs : saveStep s ih false flush =
        { s with out := s.out.inc ih, issued := bump s.issued ih } := by
      simp [saveStep, saveCalls, hh]
    refine ⟨by simp [saveCalls, hh], ?_, ?_⟩
    · rw [hs]; dsimp only; exact get_inc_self s.out ih
    · rw [hs]; dsimp only; exact bump_self s.issued ih
  · intro hh hi
    subst hi
    exact ⟨by simp [saveCalls, hh], by simp [saveStep, saveCalls, hh]⟩
  · intro hh
    simp [saveCalls, hh]
  · cases flush <;> decide
  · cases flush <;> decide

/-- Witness for C7 on a state holding one handle, with `flush` set. -/
theorem save_increments_or_swallows_witness :
    (saveCalls { initRState with handles := ["h"] } "h" false true).2 =
        [("h", saveFlags true)] ∧
      (saveStep { initRState with handles := ["h"] } "h" false true).out.get
          "h" =
        { initRState with handles := ["h"] }.out.get "h" + 1 := by
  have h := (save_increments_or_swallows { initRState with handles := ["h"] }
    "h" false true).1 (by decide) rfl
  exact ⟨h.1, h.2.1⟩

/-! ## C5: symlink cycles -/

theorem filter_length_le_of_imp (l : List Nat) (p q : Nat → Bool)
    (h : ∀ y, p y = true → q y = true) :
    (l.filter p).length ≤ (l.filter q).length := by
  induction l with
  | nil => exact le_refl 0
  | cons a t iht =>
    simp only [List.filter_cons]
    cases hp : p a with
    | false =>
      cases hq : q a with
      | false => simpa using iht
      | true =>
        simp only [Bool.false_eq_true, if_neg, not_false_iff, if_pos,
          List.length_cons]
        omega
    | true =>
      rw [h a hp]
      simp only [if_pos, List.length_cons]
      omega

theorem filter_length_lt_of_witness (l : List Nat) (p q : Nat → Bool)
    (h : ∀ y, p y = true → q y = true) (x : Nat) (hx : x ∈ l)
    (hpx : p x = false) (hqx : q x = true) :
    (l.filter p).length < (l.filter q).length := by
  induction l with
  | nil => cases hx
  | cons a t iht =>
    simp only [List.filter_cons]
    rcases List.mem_cons.mp hx with rfl | hxt
    · rw [hpx, hqx]
      simp only [Bool.false_eq_true, if_neg, not_false_iff, if_pos,
        List.length_cons]
      have := filter_length_le_of_imp t p q h
      omega
    · cases hp : p a with
      | false =>
        cases hq : q a with
        | false => simpa using iht hxt
        | true =>
          simp only [Bool.false_eq_true, if_neg, not_false_iff, if_pos,
            List.length_cons]
          have := iht hxt
          omega
      | true =>
        rw [h a hp]
        simp only [if_pos, List.length_cons]
        have := iht hxt
        omega


theorem unvisCount_nil_visited (ss : List Nat) :
    unvisCount ss [] = ss.length := by
  unfold unvisCount
  induction ss with
  | nil => rfl
  | cons a t iht => simp_all [List.filter_cons]

theorem unvisCount_cons_lt (ss visited : List Nat) (x : Nat) (hx : x ∈ ss)
    (hv : visited.contains x = false) :
    unvisCount ss (x :: visited) < unvisCount ss visited := by
  unfold unvisCount
  refine filter_length_lt_of_witness ss _ _ ?_ x hx ?_ ?_
  · intro y hy
    rw [List.contains_cons] at hy
    simp only [Bool.not_or, Bool.and_eq_true] at hy
    exact hy.2
  · rw [List.contains_cons]
    simp
  · rw [hv]
    rfl

theorem unvisCount_pos (ss visited : List Nat) (x : Nat) (hx : x ∈ ss)
    (hv : visited.contains x = false) : 0 < unvisCount ss visited := by
  unfold unvisCount
  have hpx : (!(visited.contains x)) = true := by rw [hv]; rfl
  have hmem : x ∈ ss.filter (fun y => !(visited.contains y)) :=
    List.mem_filter.mpr ⟨hx, hpx⟩
  exact List.length_pos.mpr (List.ne_nil_of_mem hmem)

/-- One unfolding step of `resolveNode` at positive fuel. -/
theorem resolveNode_succ (g : FGraph) (f i : Nat) (visited : List Nat) :
    resolveNode g (f + 1) i visited =
      match kindOf g i with
      | some (.symlink tgt) =>
        if visited.contains i then .error ELOOP
        else
          match tgt with
          | none => .error EINVAL
          | some (.inl j) => resolveNode g f j (i :: visited)
          | some (.inr str) =>
            match parentOf g i with
            | none => .error ENOENT
            | some p =>
              match traverseAux g f p (splitPath str) (i :: visited) true with
              | .error e => .error e
              | .ok (r, visited') => .ok (r, visited')
      | some _ => .ok (i, visited)
      | none => .error ENOENT := by
  rw [resolveNode]

/-- In a closed set of node-target symlinks, resolving any member with
enough fuel reports `ELOOP` via the visited set. -/
theorem resolveNode_loopSet (g : FGraph) (ss : List Nat)
    (hset : SymlinkLoopSet g ss) :
    ∀ fuel visited x, x ∈ ss → unvisCount ss visited < fuel →
      resolveNode g fuel x visited = .error ELOOP := by
  intro fuel
  induction fuel with
  | zero =>
    intro visited x _ hlt
    exact absurd hlt (Nat.not_lt_zero _)
  | succ f ihf =>
    intro visited x hx hlt
    obtain ⟨y, hy, hkind⟩ := hset.2 x hx
    rw [resolveNode_succ, hkind]
    cases hv : visited.contains x with
    | true => simp [hv]
    | false =>
      have h1 := unvisCount_cons_lt ss visited x hx hv
      have h2 := unvisCount_pos ss visited x hx hv
      have hlt2 : unvisCount ss (x :: visited) < f := by omega
      have hrec := ihf (x :: visited) y hy hlt2
      simp [hv, hrec]

/-- One unfolding step of `traverseAux` at positive fuel. -/
theorem traverseAux_succ (g : FGraph) (f cur : Nat) (comps : List String)
    (visited : List Nat) (follow : Bool) :
    traverseAux g (f + 1) cur comps visited follow =
      match comps with
      | [] => .ok (cur, visited)
      | c :: rest =>
        if c = "" ∨ c = "." then traverseAux g f cur rest visited follow
        else if c = ".." then
          match kindOf g cur with
          | some (.dir _) =>
            match parentOf g cur with
            | some p => traverseAux g f p rest visited follow
            | none => traverseAux g f cur rest visited follow
          | some _ => .error ENOTDIR
          | none => .error ENOENT
        else
          match kindOf g cur with
          | some (.dir children) =>
            match children.lookup c with
            | none => .error ENOENT
            | some child =>
              if follow ∨ rest ≠ [] then
                match resolveNode g f child visited with
                | .error e => .error e
                | .ok (r, visited') => traverseAux g f r rest visited' follow
              else .ok (child, visited)
          | some _ => .error ENOTDIR
          | none => .error ENOENT := by
  rw [traverseAux.eq_def]

theorem nodeId_lt_of_kind (g : FGraph) (x : Nat) (k : FKind)
    (h : kindOf g x = some k) : x < g.nodes.length := by
  unfold kindOf at h
  obtain ⟨nd, hnd, _⟩ := Option.map_eq_some'.mp h
  obtain ⟨hlt, _⟩ := List.get?_eq_some.mp hnd
  exact hlt

theorem loopSet_length_le (g : FGraph) (ss : List Nat)
    (hset : SymlinkLoopSet g ss) (hnd : ss.Nodup) :
    ss.length ≤ g.nodes.length := by
  have hsub : ∀ x ∈ ss, x < g.nodes.length := by
    intro x hx
    obtain ⟨y, hy, hk⟩ := hset.2 x hx
    exact nodeId_lt_of_kind g x _ hk
  have h1 : ss.toFinset.card = ss.length := List.toFinset_card_of_nodup hnd
  have h2 : ss.toFinset ⊆ Finset.range g.nodes.length := by
    intro x hx
    exact Finset.mem_range.mpr (hsub x (List.mem_toFinset.mp hx))
  have h3 := Finset.card_le_card h2
  rw [h1, Finset.card_range] at h3
  exact h3

/-- C5: for every arena graph, any directory child starting a cycle of
node-target symlinks (a nonempty closed loop set, e.g. a self-loop) makes
`traverse` with `follow_symlinks=true` fail with `ELOOP`, while `realpath`
on a path entering the cycle never fails and returns the absolute
concatenation of the unresolved components (`realpath("loop/a") = /loop/a`).
(Modelled from the spec, `tvaf/fs.py` not being in the tree.) -/
theorem traverse_cycle_eloop_realpath_total (g : FGraph) (d : Nat)
    (children : List (String × Nat)) (nm a : String) (s0 : Nat)
    (ss : List Nat)
    (hd : kindOf g d = some (.dir children))
    (hlk : children.lookup nm = some s0)
    (hset : SymlinkLoopSet g ss) (hs0 : s0 ∈ ss) (hnd : ss.Nodup)
    (hn1 : nm ≠ "") (hn2 : nm ≠ ".") (hn3 : nm ≠ "..")
    (hsp : splitPath nm = [nm]) (hsl : startsWithSlash nm = false)
    (hsp2 : splitPath (nm ++ "/" ++ a) = [nm, a])
    (hsl2 : startsWithSlash (nm ++ "/" ++ a) = false) :
    traverse g d nm true = .error ELOOP ∧
    realpath g d (nm ++ "/" ++ a) = abspath g d ++ [nm, a] := by
  have hlen : ss.length ≤ g.nodes.length := loopSet_length_le g ss hset hnd
  have hcond : ¬(nm = "" ∨ nm = ".") := by
    rintro (h | h)
    · exact hn1 h
    · exact hn2 h
  constructor
  · have hfuel : traverseFuel g [nm] = (3 * (g.nodes.length + 2) - 1) + 1 := by
      unfold traverseFuel
      simp only [List.length_singleton]
      omega
    have hres : resolveNode g (3 * (g.nodes.length + 2) - 1) s0 [] =
        .error ELOOP := by
      refine resolveNode_loopSet g ss hset _ [] s0 hs0 ?_
      rw [unvisCount_nil_visited]
      omega
    unfold traverse
    rw [hsp, hsl]
    dsimp only
    rw [hfuel, traverseAux_succ]
    simp [hcond, hn3, hd, hlk, hres, Except.map]
  · have hres : resolveNode g (g.nodes.length + 2) s0 [] = .error ELOOP := by
      refine resolveNode_loopSet g ss hset _ [] s0 hs0 ?_
      rw [unvisCount_nil_visited]
      omega
    unfold realpath
    rw [hsp2, hsl2]
    dsimp only
    simp [realpathAux, hcond, hn3, hd, hlk, hres]


/-- Witness for C5 on the self-loop of the tests:
`traverse("loop", follow=true)` is `ELOOP`, `realpath("loop/a")` is
`/loop/a`. -/
theorem traverse_cycle_eloop_witness :
    (traverse fsLoopGraph 0 "loop" true = .error ELOOP ∧
      realpath fsLoopGraph 0 ("loop" ++ "/" ++ "a") =
        abspath fsLoopGraph 0 ++ ["loop", "a"]) ∧
    renderPath (abspath fsLoopGraph 0 ++ ["loop", "a"]) = "/loop/a" := by
  refine ⟨?_, rfl⟩
  refine traverse_cycle_eloop_realpath_total fsLoopGraph 0 [("loop", 1)]
    "loop" "a" 1 [1] rfl rfl ?_ (by simp) (by decide)
    (by decide) (by decide) (by decide) rfl rfl rfl rfl
  refine ⟨by decide, ?_⟩
  intro x hx
  have hx1 : x = 1 := by simpa using hx
  subst hx1
  exact ⟨1, by simp, rfl⟩

end Tvaf
